import Mathlib

/-!
Verification of `webstruct/wapiti.py`: a shallow embedding in Lean 4 of the
Wapiti feature-encoding and template-compilation utilities, together with
theorems checking the repository's specification against the code.

Modelling conventions:
* Python strings are modelled as Lean `String` / `List Char`; the whitespace
  classes (`str.strip`, the regex class `\s`, `str.split()` with no separator)
  are modelled over their ASCII members, which is exact for the ASCII template
  and data text the module processes.
* Python `dict` built from a pair sequence keeps the last binding of each key;
  `dictGet` below implements exactly that lookup.
* Fallible Python code (a `KeyError` escaping `re.sub`, a failed `assert`, a
  raised `ValueError`/`TypeError`) is modelled with `Except`/`Option` results.
* `re.sub` with `WAPITI_MACRO_PATTERN` is modelled by a deterministic
  left-to-right scanner.  The pattern
  `%[xXtTmM] \[ \s*(-?\d+)\s* , \s*([^\],\s]+)\s* ([\],])` is deterministic:
  every repetition operator ranges over a character class disjoint from the
  class that can follow it, so greedy matching never needs to backtrack, and
  the scanner below recognises exactly the same matches.
-/

namespace Webstruct

instance {ε α : Type} [DecidableEq ε] [DecidableEq α] : DecidableEq (Except ε α) :=
  fun x y =>
    match x, y with
    | .ok a, .ok b =>
        if h : a = b then .isTrue (by rw [h]) else .isFalse (by simp [h])
    | .error a, .error b =>
        if h : a = b then .isTrue (by rw [h]) else .isFalse (by simp [h])
    | .ok _, .error _ => .isFalse (by simp)
    | .error _, .ok _ => .isFalse (by simp)

/-- The characters of Python's `\s` class / `str.strip` default, ASCII part. -/
def isPySpace (c : Char) : Bool :=
  c = ' ' || c = '\t' || c = '\n' || c = '\r' || c = '\x0b' || c = '\x0c'

/-- `str.strip()` on a list of characters: drop whitespace from both ends. -/
def pyStripL (l : List Char) : List Char :=
  ((l.dropWhile isPySpace).reverse.dropWhile isPySpace).reverse

/-- `str.strip()` for `String`. -/
def pyStrip (s : String) : String :=
  String.mk (pyStripL s.toList)

/-- Does the (stripped) line start with the character `#`? -/
def startsWithHash : List Char → Bool
  | '#' :: _ => true
  | _ => false

/-- `_wapiti_line_is_comment(line)`: `line.strip().startswith('#')`. -/
def _wapiti_line_is_comment (line : String) : Bool :=
  startsWithHash (pyStripL line.toList)

/-- `str.split('\n')` on a character list: every occurrence of `'\n'`
separates two (possibly empty) pieces. -/
def splitNl : List Char → List (List Char)
  | [] => [[]]
  | c :: rest =>
    if c = '\n' then [] :: splitNl rest
    else
      match splitNl rest with
      | [] => [[c]]
      | g :: gs => (c :: g) :: gs

/-- Python `str.splitlines()` restricted to `'\n'` terminators: split on each
newline and drop the final empty piece produced by a trailing newline; the
empty string yields no lines. -/
def pySplitlinesL (l : List Char) : List (List Char) :=
  if l.isEmpty then []
  else if l.getLast? = some '\n' then (splitNl l).dropLast
  else splitNl l

/-- `str.splitlines()` for `String` (newline-terminated text). -/
def pySplitlines (s : String) : List String :=
  (pySplitlinesL s.toList).map String.mk

/-- `'\n'.join(lines)`. -/
def joinNl : List String → String
  | [] => ""
  | x :: xs => xs.foldl (fun acc l => acc ++ "\n" ++ l) x

/-- Lookup in a Python `dict` built from an association list: the *last*
binding of a key wins (later pairs overwrite earlier ones). -/
def dictGet {α : Type} : List (String × α) → String → Option α
  | [], _ => none
  | p :: ps, k =>
    match dictGet ps k with
    | some v => some v
    | none => if p.1 = k then some p.2 else none

/-- `dict((f, i) for i, f in enumerate(names))` as an association list,
indices starting at `i`. -/
def mkVocabAux (i : Nat) : List String → List (String × Nat)
  | [] => []
  | n :: ns => (n, i) :: mkVocabAux (i + 1) ns

/-- `dict((f, i) for i, f in enumerate(names))`. -/
def mkVocab (names : List String) : List (String × Nat) :=
  mkVocabAux 0 names

/-! ### The macro scanner (`WAPITI_MACRO_PATTERN`) -/

/-- One regex match of `WAPITI_MACRO_PATTERN`.
`sigil` is the character after `%` (group `macro` is `%` plus `sigil`);
`offset` is group `offset` (`-?\d+`, no surrounding whitespace);
`column` is group `column` (`[^\],\s]+`); `close` is group `rest`
(`]` or `,`); `suffix` is the input remaining after the match. -/
structure MacroMatch where
  sigil : Char
  offset : List Char
  column : List Char
  close : Char
  suffix : List Char
  deriving DecidableEq, Repr

/-- The column character class `[^\],\s]`. -/
def isColChar (c : Char) : Bool :=
  !(c = ']' || c = ',' || isPySpace c)

/-- Parse `\d+`: at least one ASCII digit. -/
def parseDigits (l : List Char) : Option (List Char × List Char) :=
  if (l.takeWhile Char.isDigit).isEmpty then none
  else some (l.takeWhile Char.isDigit, l.dropWhile Char.isDigit)

/-- Parse `[-]?\d+`: an optional minus sign, then digits. -/
def parseOffset (l : List Char) : Option (List Char × List Char) :=
  if l.head? = some '-' then (parseDigits l.tail).map fun p => ('-' :: p.1, p.2)
  else parseDigits l

/-- Parse `[^\],\s]+`: at least one column character. -/
def parseColumn (l : List Char) : Option (List Char × List Char) :=
  if (l.takeWhile isColChar).isEmpty then none
  else some (l.takeWhile isColChar, l.dropWhile isColChar)

/-- Parse the closing `[\],]`. -/
def parseClose : List Char → Option (Char × List Char)
  | c :: r => if c = ']' || c = ',' then some (c, r) else none
  | [] => none

/-- Is `c` one of the sigil characters `[xXtTmM]`? -/
def isSigil (c : Char) : Bool :=
  c = 'x' || c = 'X' || c = 't' || c = 'T' || c = 'm' || c = 'M'

/-- The body of a macro match after `%<sigil>[` has been consumed:
`\s* offset \s* , \s* column \s* close`. -/
def matchBody (s : Char) (r1 : List Char) : Option MacroMatch := do
  let (off, r3) ← parseOffset (r1.dropWhile isPySpace)
  match r3.dropWhile isPySpace with
  | ',' :: r5 => do
      let (col, r7) ← parseColumn (r5.dropWhile isPySpace)
      let (c, r9) ← parseClose (r7.dropWhile isPySpace)
      pure ⟨s, off, col, c, r9⟩
  | _ => none

/-- Try to match `WAPITI_MACRO_PATTERN` at the very start of the input:
`%`, a sigil, `[`, then the body. -/
def matchAt : List Char → Option MacroMatch
  | c0 :: s :: c2 :: r1 =>
    if c0 = '%' && isSigil s && c2 = '[' then matchBody s r1 else none
  | _ => none

/-- `str.isdigit()` (ASCII): every character is a digit.  The scanner only
applies it to the non-empty `column` group. -/
def pyIsDigit (l : List Char) : Bool :=
  l.all Char.isDigit

/-- The `repl` function of `prepare_wapiti_template`: resolve the column of
one match.  A bare integer column is returned untouched, with no vocabulary
lookup; otherwise the vocabulary is consulted and a missing name raises
`KeyError`. -/
def replColumn (vocab : List (String × Nat)) (col : List Char) :
    Except String (List Char) :=
  if pyIsDigit col then .ok col
  else
    match dictGet vocab (String.mk col) with
    | some i => .ok (Nat.repr i).toList
    | none => .error ("KeyError: " ++ String.mk col)

/-- `WAPITI_MACRO_PATTERN.sub(repl, line)` with fuel (the recursion consumes
at least one character per step, so fuel `l.length` is always enough): scan
left to right; on a match emit
`"{macro}[{offset},{column}{rest}"` and continue after the match, otherwise
copy one character.  A `KeyError` from `repl` aborts the whole substitution. -/
def substFuel (vocab : List (String × Nat)) : Nat → List Char →
    Except String (List Char)
  | _, [] => .ok []
  | 0, _ :: _ => .error "out of fuel"
  | n + 1, c :: cs =>
    match matchAt (c :: cs) with
    | some m => do
        let col ← replColumn vocab m.column
        let tail ← substFuel vocab n m.suffix
        .ok ('%' :: m.sigil :: '[' :: (m.offset ++ [','] ++ col ++ [m.close] ++ tail))
    | none => do
        let tail ← substFuel vocab n cs
        .ok (c :: tail)

/-- `WAPITI_MACRO_PATTERN.sub(repl, line)`. -/
def subst (vocab : List (String × Nat)) (l : List Char) :
    Except String (List Char) :=
  substFuel vocab l.length l

/-- All matches the scanner finds in a line, left to right, non-overlapping
(the same scan as `substFuel`, independent of any vocabulary). -/
def findMacrosFuel : Nat → List Char → List MacroMatch
  | _, [] => []
  | 0, _ :: _ => []
  | n + 1, c :: cs =>
    match matchAt (c :: cs) with
    | some m => m :: findMacrosFuel n m.suffix
    | none => findMacrosFuel n cs

/-- All pattern matches in a line. -/
def findMacros (l : List Char) : List MacroMatch :=
  findMacrosFuel l.length l

/-- One part of the scan's decomposition of a line: either a gap of
non-macro text between matches (`Sum.inl`), or a matched macro span
(`Sum.inr`, carrying the raw matched text together with the match). -/
abbrev ScanPart : Type := Sum (List Char) (List Char × MacroMatch)

/-- The raw input text a scan part covers. -/
def partRaw : ScanPart → List Char
  | .inl seg => seg
  | .inr p => p.1

/-- The scan's decomposition of a line into non-match gaps and matched
spans, with fuel (the same left-to-right scan as `substFuel`): a match
contributes the raw text it consumed (the input minus the remaining
suffix) and the match itself; a non-match character joins the following
gap. -/
def scanPartsFuel : Nat → List Char → List ScanPart
  | _, [] => []
  | 0, _ :: _ => []
  | n + 1, c :: cs =>
    match matchAt (c :: cs) with
    | some m =>
      .inr ((c :: cs).take ((c :: cs).length - m.suffix.length), m) ::
        scanPartsFuel n m.suffix
    | none =>
      match scanPartsFuel n cs with
      | .inl seg :: parts => .inl (c :: seg) :: parts
      | parts => .inl [c] :: parts

/-- The scan's decomposition of a line. -/
def lineParts (l : List Char) : List ScanPart :=
  scanPartsFuel l.length l

/-- Render one scan part of the substitution's output: a gap is copied
through verbatim; a matched span becomes
`"{macro}[{offset},{column}{rest}"` with the column resolved by `repl`. -/
def renderPart (vocab : List (String × Nat)) : ScanPart →
    Except String (List Char)
  | .inl seg => .ok seg
  | .inr p => (replColumn vocab p.2.column).map
      (fun col => '%' :: p.2.sigil :: '[' :: (p.2.offset ++ [','] ++ col ++ [p.2.close]))

/-- One line of `prepare_wapiti_template`: a comment line is copied
unchanged, any other line goes through the macro substitution. -/
def processLine (vocab : List (String × Nat)) (line : String) :
    Except String String :=
  if _wapiti_line_is_comment line then .ok line
  else (subst vocab line.toList).map String.mk

/-- `[f(x) for x in l]` where `f` may raise: the first raise aborts. -/
def mapE {α β : Type} (f : α → Except String β) : List α →
    Except String (List β)
  | [] => .ok []
  | x :: xs => do
      let y ← f x
      let ys ← mapE f xs
      .ok (y :: ys)

/-- `prepare_wapiti_template(template, vocabulary)`: split into lines,
rewrite the macros of every non-comment line, join with `'\n'`. -/
def prepare_wapiti_template (template : String) (vocab : List (String × Nat)) :
    Except String String :=
  (mapE (processLine vocab) (pySplitlines template)).map joinNl

/-! ### `WapitiFeatureEncoder` -/

/-- One per-token feature observation: a Python dict from feature name to a
(stringified) value.  The claims under verification do not depend on the
numeric stringification rule, so values are carried as strings. -/
abbrev FeatDict : Type := List (String × String)

/-- `a | b` on Python sets, refined to a deterministic list order: the
elements of `a`, then the elements of `b` not already present. -/
def listUnion (a b : List String) : List String :=
  a ++ b.filter (fun x => decide (x ∉ a))

/-- `a - b` on Python sets, as a list. -/
def listDiff (a b : List String) : List String :=
  a.filter (fun x => decide (x ∉ b))

/-- Modelled from the spec: `get_combined_keys` from `webstruct.utils` is not
under `src/`; per spec §4.1 the vocabulary "computes the full set of feature
names present across all observations", so this returns the union of the key
sets of a sequence of feature dicts (Python's set order is unspecified; this
model fixes one deterministic order). -/
def get_combined_keys (ds : List FeatDict) : List String :=
  ((ds.map (fun d => d.map Prod.fst)).flatten).dedup

/-- The state of a `WapitiFeatureEncoder`. -/
structure WapitiFeatureEncoder where
  move_to_front : List String
  feature_names_ : Option (List String)
  vocabulary_ : Option (List (String × Nat))
  deriving DecidableEq, Repr

/-- `WapitiFeatureEncoder.__init__(move_to_front)`: no vocabulary yet. -/
def WapitiFeatureEncoder.init (mtf : List String) : WapitiFeatureEncoder :=
  ⟨mtf, none, none⟩

/-- `set(self.feature_names_ or set())`: `None` and the empty tuple both give
the empty set; otherwise the set of the stored names. -/
def WapitiFeatureEncoder.storedKeys (e : WapitiFeatureEncoder) : List String :=
  (match e.feature_names_ with
   | some l => l
   | none => []).dedup

/-- `partial_fit(X)`: union the previously stored names with the combined
keys of every sequence in `X`, subtracting `move_to_front` inside each loop
iteration, then store `move_to_front + keys` and rebuild the vocabulary
dict via `enumerate`. -/
def WapitiFeatureEncoder.partial_fit (e : WapitiFeatureEncoder)
    (X : List (List FeatDict)) : WapitiFeatureEncoder :=
  let keys := X.foldl
    (fun ks ds => listDiff (listUnion ks (get_combined_keys ds)) e.move_to_front)
    e.storedKeys
  { e with feature_names_ := some (e.move_to_front ++ keys),
           vocabulary_ := some (mkVocab (e.move_to_front ++ keys)) }

/-- `fit(X, y)` = `partial_fit(X)`. -/
def WapitiFeatureEncoder.fit (e : WapitiFeatureEncoder)
    (X : List (List FeatDict)) : WapitiFeatureEncoder :=
  e.partial_fit X

/-- `reset()`: the source sets `feature_names_ = None` and nothing else. -/
def WapitiFeatureEncoder.reset (e : WapitiFeatureEncoder) :
    WapitiFeatureEncoder :=
  { e with feature_names_ := none }

/-- The column index of a feature name in the fitted vocabulary
(`self.vocabulary_[name]`, spec's `index_of`). -/
def WapitiFeatureEncoder.index_of (e : WapitiFeatureEncoder) (k : String) :
    Option Nat :=
  e.vocabulary_.bind fun d => dictGet d k

/-- Modelled from the spec: `tostr` from `webstruct.utils` is not under
`src/`; the spec fixes only that a present value is rendered canonically and
a missing one (`dct.get(key)` returning `None`) as a fixed placeholder
string. -/
def tostr : Option String → String
  | some s => s
  | none => "None"

/-- `' '.join(strings)`. -/
def joinSp : List String → String
  | [] => ""
  | x :: xs => xs.foldl (fun acc s => acc ++ " " ++ s) x

/-- One Wapiti data row: `' '.join(tostr(dct.get(key)) for key in names)`. -/
def encodeRow (names : List String) (d : FeatDict) : String :=
  joinSp (names.map fun k => tostr (dictGet d k))

/-- `transform_single(feature_dicts)`: one line per dict.  Iterating an
unfitted encoder's `feature_names_` (`None`) raises, modelled as `none`;
with no dicts the names are never read and the result is the empty list. -/
def WapitiFeatureEncoder.transform_single (e : WapitiFeatureEncoder)
    (ds : List FeatDict) : Option (List String) :=
  if ds.isEmpty then some []
  else e.feature_names_.map fun names => ds.map (encodeRow names)

/-- `transform(X)`: `transform_single` applied to every sequence. -/
def WapitiFeatureEncoder.transform (e : WapitiFeatureEncoder)
    (X : List (List FeatDict)) : Option (List (List String)) :=
  X.mapM e.transform_single

/-- `prepare_template(template)`: delegate to `prepare_wapiti_template` with
the fitted `vocabulary_` (on an unfitted encoder any lookup fails, as
Python's `None[column]` raises). -/
def WapitiFeatureEncoder.prepare_template (e : WapitiFeatureEncoder)
    (template : String) : Except String String :=
  prepare_wapiti_template template (e.vocabulary_.getD [])

/-! ### `WapitiChunker` (prediction path) -/

/-- `str.split()` with no separator: split on whitespace runs, no empty
pieces. -/
def pyWsSplit (s : String) : List String :=
  (s.toList.splitOnP isPySpace).filter (fun p => !p.isEmpty) |>.map String.mk

/-- `_get_labels(feature_lines)` applied to the tagger output: take every
non-blank line of `model.label_sequence(...)` (split on `'\n'`), in order,
and keep its last whitespace-delimited field (`line.rsplit()[-1]`). -/
def _get_labels (tagger_output : String) : List String :=
  ((splitNl tagger_output.toList).map String.mk).filter
      (fun l => pyStrip l ≠ "") |>.map
    (fun l => (pyWsSplit l).getLastD "")

/-- `WapitiChunker.transform` after feature extraction: the extractor
(external, spec §6) supplies `tokens`; the tagger output string is
`model.label_sequence(...)`.  The labels are extracted, the
`assert len(tokens) == len(labels)` is modelled as an error result, and the
aligned `(token, label)` pairs (the input of the downstream `le.group`
collaborator) are returned. -/
def WapitiChunker.transform (tokens : List String) (tagger_output : String) :
    Except String (List (String × String)) :=
  if tokens.length = (_get_labels tagger_output).length then
    .ok (tokens.zip (_get_labels tagger_output))
  else .error "AssertionError: len(tokens) == len(labels)"

/-! ### `WapitiCRF` (training orchestrator) -/

/-- `_to_train_sequence(wapiti_lines, tags)`:
`'\n'.join("%s %s" % (line, tag) for line, tag in zip(wapiti_lines, tags))`. -/
def _to_train_sequence (wapiti_lines : List String) (tags : List String) :
    String :=
  joinNl ((wapiti_lines.zip tags).map fun p => p.1 ++ " " ++ p.2)

/-- Python truthiness of an optional list (`None` and `[]` are falsy). -/
def optTruthyL {α : Type} : Option (List α) → Bool
  | none => false
  | some l => !l.isEmpty

/-- Python truthiness of an optional string (`None` and `""` are falsy). -/
def optTruthyS : Option String → Bool
  | none => false
  | some s => !s.isEmpty

/-- The observable outcome of `WapitiCRF.fit`: the files it creates and the
external processes it runs, in order, and the exception it raises, if any.
The `finally` unlink of the temporary files does not affect the verified
claims and is elided. -/
structure FitTrace where
  actions : List String
  error : Option String
  deriving DecidableEq, Repr

/-- `WapitiCRF.fit(X, y, X_dev, y_dev, out_dev)` as a trace of observable
actions.  The guard is the source's
`if any([X_dev, y_dev, out_dev]): if X_dev is None or y_dev is None: raise
ValueError(...)` (Python truthiness), placed before any file activity.
Afterwards the encoder is reset and fitted, the training data file is
written, the development branch runs (`zip(X_dev, None)` inside
`_create_wapiti_data_file` raises `TypeError` before its file is opened,
and a missing `out_dev` allocates a temporary output file), the template
file is written and the trainer (plus the `--check` run when development
data exists) is invoked. -/
def WapitiCRF.fit (e : WapitiFeatureEncoder) (X : List (List FeatDict))
    (X_dev : Option (List (List FeatDict)))
    (y_dev : Option (List (List String))) (out_dev : Option String) :
    FitTrace :=
  if (optTruthyL X_dev || optTruthyL y_dev || optTruthyS out_dev)
      && (X_dev.isNone || y_dev.isNone) then
    { actions := [],
      error := some "ValueError: Pass both X_dev and y_dev to use the development data" }
  else
    let _ := (e.reset).fit X
    let acts0 := ["create:train-data"]
    match X_dev with
    | none =>
        { actions := acts0 ++ ["create:template", "exec:wapiti-train"],
          error := none }
    | some _ =>
        match y_dev with
        | none =>
            { actions := acts0,
              error := some "TypeError: zip argument 2 must support iteration" }
        | some _ =>
            let acts1 := acts0 ++ ["create:dev-data"] ++
              (match out_dev with
               | none => ["create:dev-output"]
               | some _ => [])
            { actions := acts1 ++
                ["create:template", "exec:wapiti-train", "exec:wapiti-check"],
              error := none }

/-! ### Lemmas about the macro scanner -/

theorem length_dropWhile_le {α : Type} (p : α → Bool) (l : List α) :
    (l.dropWhile p).length ≤ l.length := by
  induction l with
  | nil => simp
  | cons c cs ih =>
    rw [List.dropWhile_cons]
    split
    · exact Nat.le_succ_of_le ih
    · exact Nat.le_refl _

theorem parseDigits_suffix_le {l d r : List Char}
    (h : parseDigits l = some (d, r)) : r.length ≤ l.length := by
  unfold parseDigits at h
  split at h
  · exact absurd h (by simp)
  · simp only [Option.some.injEq, Prod.mk.injEq] at h
    rw [← h.2]
    exact length_dropWhile_le _ _

theorem parseOffset_suffix_le {l off r : List Char}
    (h : parseOffset l = some (off, r)) : r.length ≤ l.length := by
  unfold parseOffset at h
  split at h
  · rcases Option.map_eq_some'.mp h with ⟨⟨d, r0⟩, hd, heq⟩
    simp only [Prod.mk.injEq] at heq
    rw [← heq.2]
    calc r0.length ≤ l.tail.length := parseDigits_suffix_le hd
    _ ≤ l.length := by rw [List.length_tail]; omega
  · exact parseDigits_suffix_le h

theorem parseColumn_suffix_le {l col r : List Char}
    (h : parseColumn l = some (col, r)) : r.length ≤ l.length := by
  unfold parseColumn at h
  split at h
  · exact absurd h (by simp)
  · simp only [Option.some.injEq, Prod.mk.injEq] at h
    rw [← h.2]
    exact length_dropWhile_le _ _

theorem parseClose_suffix_lt {l : List Char} {c : Char} {r : List Char}
    (h : parseClose l = some (c, r)) : r.length < l.length := by
  unfold parseClose at h
  split at h
  · split at h
    · simp only [Option.some.injEq, Prod.mk.injEq] at h
      rw [← h.2]
      simp
    · exact absurd h (by simp)
  · exact absurd h (by simp)

theorem matchBody_suffix_le {s : Char} {r1 : List Char} {m : MacroMatch}
    (h : matchBody s r1 = some m) : m.suffix.length ≤ r1.length := by
  unfold matchBody at h
  rcases ho : parseOffset (r1.dropWhile isPySpace) with _ | ⟨off, r3⟩
  · rw [ho] at h; exact absurd h (by simp)
  rw [ho] at h
  simp only [Option.bind_eq_bind, Option.some_bind] at h
  split at h
  case _ r5 heq =>
    rcases hc : parseColumn (r5.dropWhile isPySpace) with _ | ⟨col, r7⟩
    · rw [hc] at h; exact absurd h (by simp)
    rw [hc] at h
    simp only [Option.some_bind] at h
    rcases hcl : parseClose (r7.dropWhile isPySpace) with _ | ⟨cc, r9⟩
    · rw [hcl] at h; exact absurd h (by simp)
    rw [hcl] at h
    simp only [Option.some_bind] at h
    obtain rfl : m = ⟨s, off, col, cc, r9⟩ := Option.some.inj h.symm
    have h9 : MacroMatch.suffix ⟨s, off, col, cc, r9⟩ = r9 := rfl
    have l1 : r9.length < (r7.dropWhile isPySpace).length := parseClose_suffix_lt hcl
    have l2 : (r7.dropWhile isPySpace).length ≤ r7.length := length_dropWhile_le _ _
    have l3 : r7.length ≤ (r5.dropWhile isPySpace).length := parseColumn_suffix_le hc
    have l4 : (r5.dropWhile isPySpace).length ≤ r5.length := length_dropWhile_le _ _
    have l5 : r5.length + 1 = (r3.dropWhile isPySpace).length := by
      rw [heq]; simp
    have l6 : (r3.dropWhile isPySpace).length ≤ r3.length := length_dropWhile_le _ _
    have l7 : r3.length ≤ (r1.dropWhile isPySpace).length := parseOffset_suffix_le ho
    have l8 : (r1.dropWhile isPySpace).length ≤ r1.length := length_dropWhile_le _ _
    rw [h9]
    omega
  case _ => exact absurd h (by simp)

theorem matchAt_suffix_lt {l : List Char} {m : MacroMatch}
    (h : matchAt l = some m) : m.suffix.length < l.length := by
  unfold matchAt at h
  split at h
  case _ c0 s c2 r1 =>
    split at h
    · have := matchBody_suffix_le h
      simp only [List.length_cons]
      omega
    · exact absurd h (by simp)
  case _ => exact absurd h (by simp)

theorem matchAt_head_percent {l : List Char} {m : MacroMatch}
    (h : matchAt l = some m) : l.head? = some '%' := by
  unfold matchAt at h
  split at h
  case _ c0 s c2 r1 =>
    split at h
    case _ hg =>
      simp only [Bool.and_eq_true, decide_eq_true_eq] at hg
      simp [hg.1.1]
    case _ => exact absurd h (by simp)
  case _ => exact absurd h (by simp)

theorem substFuel_nil (vocab : List (String × Nat)) (n : Nat) :
    substFuel vocab n [] = .ok [] := by
  cases n <;> rfl

theorem findMacrosFuel_nil (n : Nat) : findMacrosFuel n [] = [] := by
  cases n <;> rfl

/-- Fuel is irrelevant once it covers the input length. -/
theorem substFuel_fuel_irrel (vocab : List (String × Nat)) :
    ∀ (n n' : Nat) (l : List Char), l.length ≤ n → l.length ≤ n' →
      substFuel vocab n l = substFuel vocab n' l := by
  intro n
  induction n with
  | zero =>
    intro n' l h _
    have : l = [] := List.length_eq_zero.mp (Nat.le_zero.mp h)
    subst this
    rw [substFuel_nil, substFuel_nil]
  | succ n0 ih =>
    intro n' l h h'
    cases l with
    | nil => rw [substFuel_nil, substFuel_nil]
    | cons c cs =>
      cases n' with
      | zero => simp at h'
      | succ n0' =>
        cases hm : matchAt (c :: cs) with
        | some m =>
          have hlt := matchAt_suffix_lt hm
          simp only [List.length_cons] at h h' hlt
          simp only [substFuel, hm]
          rw [ih n0' m.suffix (by omega) (by omega)]
        | none =>
          simp only [List.length_cons] at h h'
          simp only [substFuel, hm]
          rw [ih n0' cs (by omega) (by omega)]

/-- Fuel is irrelevant for the match collector as well. -/
theorem findMacrosFuel_fuel_irrel :
    ∀ (n n' : Nat) (l : List Char), l.length ≤ n → l.length ≤ n' →
      findMacrosFuel n l = findMacrosFuel n' l := by
  intro n
  induction n with
  | zero =>
    intro n' l h _
    have : l = [] := List.length_eq_zero.mp (Nat.le_zero.mp h)
    subst this
    rw [findMacrosFuel_nil, findMacrosFuel_nil]
  | succ n0 ih =>
    intro n' l h h'
    cases l with
    | nil => rw [findMacrosFuel_nil, findMacrosFuel_nil]
    | cons c cs =>
      cases n' with
      | zero => simp at h'
      | succ n0' =>
        cases hm : matchAt (c :: cs) with
        | some m =>
          have hlt := matchAt_suffix_lt hm
          simp only [List.length_cons] at h h' hlt
          simp only [findMacrosFuel, hm]
          rw [ih n0' m.suffix (by omega) (by omega)]
        | none =>
          simp only [List.length_cons] at h h'
          simp only [findMacrosFuel, hm]
          rw [ih n0' cs (by omega) (by omega)]

theorem error_bind {α β : Type} (e : String) (f : α → Except String β) :
    (Except.error e >>= f) = Except.error e := rfl

theorem ok_bind {α β : Type} (a : α) (f : α → Except String β) :
    (Except.ok a >>= f) = f a := rfl

/-- A line without `%` is passed through byte-for-byte by the substitution. -/
theorem substFuel_no_percent (vocab : List (String × Nat)) :
    ∀ (n : Nat) (l : List Char), l.length ≤ n → (∀ c ∈ l, c ≠ '%') →
      substFuel vocab n l = .ok l := by
  intro n
  induction n with
  | zero =>
    intro l h _
    have : l = [] := List.length_eq_zero.mp (Nat.le_zero.mp h)
    subst this
    rw [substFuel_nil]
  | succ n0 ih =>
    intro l h hnp
    cases l with
    | nil => rw [substFuel_nil]
    | cons c cs =>
      cases hm : matchAt (c :: cs) with
      | some m =>
        have := matchAt_head_percent hm
        simp only [List.head?_cons, Option.some.injEq] at this
        exact absurd this (hnp c (by simp))
      | none =>
        simp only [List.length_cons] at h
        simp only [substFuel, hm]
        rw [ih cs (by omega) (fun x hx => hnp x (List.mem_cons_of_mem c hx)),
          ok_bind]

theorem mem_of_getLast?_eq {α : Type} {l : List α} {x : α} :
    l.getLast? = some x → x ∈ l := by
  induction l with
  | nil => intro h; simp at h
  | cons a as ih =>
    intro h
    cases as with
    | nil =>
      simp only [List.getLast?_singleton, Option.some.injEq] at h
      simp [h]
    | cons b bs =>
      rw [List.getLast?_cons_cons] at h
      exact List.mem_cons_of_mem a (ih h)

/-- Splitting a newline-free list on newlines gives the list back whole. -/
theorem splitNl_no_newline {l : List Char} (h : '\n' ∉ l) : splitNl l = [l] := by
  induction l with
  | nil => rfl
  | cons c cs ih =>
    simp only [List.mem_cons, not_or] at h
    have hc : ¬c = '\n' := fun hc => h.1 hc.symm
    simp only [splitNl, if_neg hc, ih h.2]

/-- A non-empty newline-free string is a single physical line. -/
theorem pySplitlinesL_single {l : List Char} (h0 : l ≠ []) (h : '\n' ∉ l) :
    pySplitlinesL l = [l] := by
  unfold pySplitlinesL
  rw [if_neg (by simp [h0])]
  rw [if_neg (fun hc => h (mem_of_getLast?_eq hc)), splitNl_no_newline h]

theorem mk_toList (s : String) : String.mk s.toList = s := rfl

/-- A comment line is never the empty string. -/
theorem comment_toList_ne_nil {line : String}
    (h : _wapiti_line_is_comment line = true) : line.toList ≠ [] := by
  intro hnil
  unfold _wapiti_line_is_comment at h
  rw [hnil] at h
  exact absurd h (by decide)

theorem processLine_comment (vocab : List (String × Nat)) (line : String)
    (h : _wapiti_line_is_comment line = true) :
    processLine vocab line = .ok line := by
  unfold processLine
  rw [if_pos h]

/-- A line without `%` characters is returned unchanged by `processLine`. -/
theorem processLine_no_percent (vocab : List (String × Nat)) (line : String)
    (h : ∀ c ∈ line.toList, c ≠ '%') : processLine vocab line = .ok line := by
  unfold processLine
  split
  · rfl
  · unfold subst
    rw [substFuel_no_percent vocab line.toList.length line.toList (Nat.le_refl _) h]
    simp [Except.map, mk_toList]

/-- `mapE` returns the pointwise results. -/
theorem mapE_forall2 {α β : Type} {f : α → Except String β} :
    ∀ {l : List α} {out : List β}, mapE f l = .ok out →
      List.Forall₂ (fun a b => f a = .ok b) l out := by
  intro l
  induction l with
  | nil =>
    intro out h
    simp only [mapE] at h
    obtain rfl : [] = out := Except.ok.inj h
    exact List.Forall₂.nil
  | cons x xs ih =>
    intro out h
    simp only [mapE] at h
    rcases hx : f x with e | y
    · rw [hx, error_bind] at h
      exact absurd h (by simp)
    rcases hxs : mapE f xs with e | ys
    · rw [hx, ok_bind, hxs, error_bind] at h
      exact absurd h (by simp)
    rw [hx, ok_bind, hxs, ok_bind] at h
    obtain rfl : y :: ys = out := Except.ok.inj h
    exact List.Forall₂.cons hx (ih hxs)

/-- If any element of the list fails, `mapE` fails. -/
theorem mapE_error_of_mem {α β : Type} {f : α → Except String β} {x : α}
    {e : String} :
    ∀ {l : List α}, x ∈ l → f x = .error e → ∃ e2, mapE f l = .error e2 := by
  intro l
  induction l with
  | nil => intro h; exact absurd h (by simp)
  | cons y ys ih =>
    intro hmem hx
    rcases hy : f y with ey | v
    · exact ⟨ey, by simp only [mapE]; rw [hy, error_bind]⟩
    rcases List.mem_cons.mp hmem with rfl | hmem2
    · rw [hx] at hy
      exact absurd hy (by simp)
    rcases ih hmem2 hx with ⟨e2, h2⟩
    exact ⟨e2, by simp only [mapE]; rw [hy, ok_bind, h2, error_bind]⟩

/-- The substitution succeeds exactly when every macro the scan finds has a
resolvable column. -/
theorem substFuel_ok_iff (vocab : List (String × Nat)) :
    ∀ (n : Nat) (l : List Char), l.length ≤ n →
      ((∃ out, substFuel vocab n l = .ok out) ↔
        ∀ m ∈ findMacrosFuel n l, ∃ col, replColumn vocab m.column = .ok col) := by
  intro n
  induction n with
  | zero =>
    intro l h
    have : l = [] := List.length_eq_zero.mp (Nat.le_zero.mp h)
    subst this
    rw [substFuel_nil, findMacrosFuel_nil]
    simp
  | succ n0 ih =>
    intro l h
    cases l with
    | nil =>
      rw [substFuel_nil, findMacrosFuel_nil]
      simp
    | cons c cs =>
      cases hm : matchAt (c :: cs) with
      | some m =>
        have hlt := matchAt_suffix_lt hm
        simp only [List.length_cons] at h hlt
        simp only [substFuel, findMacrosFuel, hm]
        constructor
        · rintro ⟨out, hout⟩ m' hm'
          rcases hr : replColumn vocab m.column with e | col
          · rw [hr, error_bind] at hout
            exact absurd hout (by simp)
          rcases hs : substFuel vocab n0 m.suffix with e | tail
          · rw [hr, ok_bind, hs, error_bind] at hout
            exact absurd hout (by simp)
          simp only [List.mem_cons] at hm'
          rcases hm' with rfl | hm'
          · exact ⟨col, hr⟩
          · exact (ih m.suffix (by omega)).mp ⟨tail, hs⟩ m' hm'
        · intro hall
          rcases hall m (by simp) with ⟨col, hr⟩
          rcases (ih m.suffix (by omega)).mpr
              (fun m' hm' => hall m' (List.mem_cons_of_mem m hm')) with ⟨tail, hs⟩
          exact ⟨_, by rw [hr, ok_bind, hs, ok_bind]⟩
      | none =>
        simp only [List.length_cons] at h
        simp only [substFuel, findMacrosFuel, hm]
        constructor
        · rintro ⟨out, hout⟩ m' hm'
          rcases hs : substFuel vocab n0 cs with e | tail
          · rw [hs, error_bind] at hout
            exact absurd hout (by simp)
          exact (ih cs (by omega)).mp ⟨tail, hs⟩ m' hm'
        · intro hall
          rcases (ih cs (by omega)).mpr hall with ⟨tail, hs⟩
          exact ⟨_, by rw [hs, ok_bind]⟩

/-- A macro found by the scan whose column is non-numeric and absent from
the vocabulary makes the whole substitution of its line fail. -/
theorem subst_error_of_bad {vocab : List (String × Nat)} {l : List Char}
    {m : MacroMatch} (hm : m ∈ findMacros l)
    (hnd : pyIsDigit m.column = false)
    (hnv : dictGet vocab (String.mk m.column) = none) :
    ∃ e, subst vocab l = .error e := by
  have hrepl : replColumn vocab m.column =
      .error ("KeyError: " ++ String.mk m.column) := by
    unfold replColumn
    rw [if_neg (by simp [hnd]), hnv]
  unfold subst
  rcases hsf : substFuel vocab l.length l with e | out
  · exact ⟨e, rfl⟩
  exfalso
  rcases (substFuel_ok_iff vocab l.length l (Nat.le_refl _)).mp ⟨out, hsf⟩ m hm
    with ⟨col, hcol⟩
  rw [hrepl] at hcol
  exact absurd hcol (by simp)

/-! ### The scan decomposition: gaps are copied verbatim -/

theorem parseDigits_suffix_sfx {l d r : List Char}
    (h : parseDigits l = some (d, r)) : r <:+ l := by
  unfold parseDigits at h
  split at h
  · exact absurd h (by simp)
  · simp only [Option.some.injEq, Prod.mk.injEq] at h
    rw [← h.2]
    exact List.dropWhile_suffix _

theorem parseOffset_suffix_sfx {l off r : List Char}
    (h : parseOffset l = some (off, r)) : r <:+ l := by
  unfold parseOffset at h
  split at h
  · rcases Option.map_eq_some'.mp h with ⟨⟨d, r0⟩, hd, heq⟩
    simp only [Prod.mk.injEq] at heq
    rw [← heq.2]
    exact (parseDigits_suffix_sfx hd).trans (List.tail_suffix l)
  · exact parseDigits_suffix_sfx h

theorem parseColumn_suffix_sfx {l col r : List Char}
    (h : parseColumn l = some (col, r)) : r <:+ l := by
  unfold parseColumn at h
  split at h
  · exact absurd h (by simp)
  · simp only [Option.some.injEq, Prod.mk.injEq] at h
    rw [← h.2]
    exact List.dropWhile_suffix _

theorem parseClose_suffix_sfx {l : List Char} {c : Char} {r : List Char}
    (h : parseClose l = some (c, r)) : r <:+ l := by
  unfold parseClose at h
  split at h
  · split at h
    · simp only [Option.some.injEq, Prod.mk.injEq] at h
      rw [← h.2]
      exact List.suffix_cons _ _
    · exact absurd h (by simp)
  · exact absurd h (by simp)

theorem matchBody_suffix_sfx {s : Char} {r1 : List Char} {m : MacroMatch}
    (h : matchBody s r1 = some m) : m.suffix <:+ r1 := by
  unfold matchBody at h
  rcases ho : parseOffset (r1.dropWhile isPySpace) with _ | ⟨off, r3⟩
  · rw [ho] at h; exact absurd h (by simp)
  rw [ho] at h
  simp only [Option.bind_eq_bind, Option.some_bind] at h
  split at h
  case _ r5 heq =>
    rcases hc : parseColumn (r5.dropWhile isPySpace) with _ | ⟨col, r7⟩
    · rw [hc] at h; exact absurd h (by simp)
    rw [hc] at h
    simp only [Option.some_bind] at h
    rcases hcl : parseClose (r7.dropWhile isPySpace) with _ | ⟨cc, r9⟩
    · rw [hcl] at h; exact absurd h (by simp)
    rw [hcl] at h
    simp only [Option.some_bind] at h
    obtain rfl : m = ⟨s, off, col, cc, r9⟩ := Option.some.inj h.symm
    show r9 <:+ r1
    have s3 : r5 <:+ r3.dropWhile isPySpace := by
      rw [heq]
      exact List.suffix_cons _ _
    exact (parseClose_suffix_sfx hcl).trans
      ((List.dropWhile_suffix _).trans ((parseColumn_suffix_sfx hc).trans
        ((List.dropWhile_suffix _).trans (s3.trans
          ((List.dropWhile_suffix _).trans ((parseOffset_suffix_sfx ho).trans
            (List.dropWhile_suffix _)))))))
  case _ => exact absurd h (by simp)

theorem matchAt_suffix_sfx {l : List Char} {m : MacroMatch}
    (h : matchAt l = some m) : m.suffix <:+ l := by
  unfold matchAt at h
  split at h
  case _ c0 s c2 r1 =>
    split at h
    · exact (matchBody_suffix_sfx h).trans
        ((List.suffix_cons c2 r1).trans ((List.suffix_cons s _).trans
          (List.suffix_cons c0 _)))
    · exact absurd h (by simp)
  case _ => exact absurd h (by simp)

/-- A suffix glues back onto the complementary prefix. -/
theorem take_append_suffix {l suf : List Char} (h : suf <:+ l) :
    l.take (l.length - suf.length) ++ suf = l := by
  rcases h with ⟨t, rfl⟩
  have hlen : (t ++ suf).length - suf.length = t.length := by
    simp
  rw [hlen, List.take_left]

/-- Raw reconstruction: every line is exactly the concatenation of the
scan's non-match gaps and matched macro spans, in order. -/
theorem scanPartsFuel_raw :
    ∀ (n : Nat) (l : List Char), l.length ≤ n →
      ((scanPartsFuel n l).map partRaw).flatten = l := by
  intro n
  induction n with
  | zero =>
    intro l h
    have : l = [] := List.length_eq_zero.mp (Nat.le_zero.mp h)
    subst this
    rfl
  | succ n0 ih =>
    intro l h
    cases l with
    | nil => rfl
    | cons c cs =>
      cases hm : matchAt (c :: cs) with
      | some m =>
        have hlt := matchAt_suffix_lt hm
        simp only [List.length_cons] at h hlt
        simp only [scanPartsFuel, hm, List.map_cons, List.flatten_cons, partRaw]
        rw [ih m.suffix (by omega)]
        exact take_append_suffix (matchAt_suffix_sfx hm)
      | none =>
        simp only [List.length_cons] at h
        have hcs := ih cs (by omega)
        simp only [scanPartsFuel, hm]
        rcases hP : scanPartsFuel n0 cs with _ | ⟨seg | pr, parts⟩
        · rw [hP] at hcs
          simp only [List.map_nil, List.flatten_nil] at hcs
          simp [partRaw, ← hcs]
        · rw [hP] at hcs
          simp only [List.map_cons, List.flatten_cons, partRaw] at hcs
          simp only [List.map_cons, List.flatten_cons, partRaw, List.cons_append]
          rw [hcs]
        · rw [hP] at hcs
          simp only [List.map_cons, List.flatten_cons, partRaw] at hcs
          simp only [List.map_cons, List.flatten_cons, partRaw,
            List.singleton_append]
          rw [hcs]

/-- `mapE` over a list whose head renders successfully prepends that
result. -/
theorem mapE_cons_of_ok {α β : Type} {f : α → Except String β} {x : α}
    {y : β} (h : f x = .ok y) (xs : List α) :
    mapE f (x :: xs) = (mapE f xs).map (fun ys => y :: ys) := by
  simp only [mapE, h, ok_bind]
  cases mapE f xs <;> rfl

/-- The substitution is exactly: render every scan part — gaps verbatim,
matched spans rewritten by `repl` — and concatenate, with the first
unresolvable match aborting. -/
theorem substFuel_renders (vocab : List (String × Nat)) :
    ∀ (n : Nat) (l : List Char), l.length ≤ n →
      substFuel vocab n l =
        (mapE (renderPart vocab) (scanPartsFuel n l)).map List.flatten := by
  intro n
  induction n with
  | zero =>
    intro l h
    have : l = [] := List.length_eq_zero.mp (Nat.le_zero.mp h)
    subst this
    rfl
  | succ n0 ih =>
    intro l h
    cases l with
    | nil => rfl
    | cons c cs =>
      cases hm : matchAt (c :: cs) with
      | some m =>
        have hlt := matchAt_suffix_lt hm
        simp only [List.length_cons] at h hlt
        simp only [substFuel, scanPartsFuel, hm, mapE, renderPart]
        rcases hr : replColumn vocab m.column with e | col
        · simp [Except.map, error_bind]
        · rw [ih m.suffix (by omega)]
          rcases hs : mapE (renderPart vocab) (scanPartsFuel n0 m.suffix)
            with e | rest
          · simp [Except.map, error_bind, ok_bind]
          · simp [Except.map, ok_bind, List.flatten_cons, List.cons_append,
              List.append_assoc]
      | none =>
        simp only [List.length_cons] at h
        have hcs := ih cs (by omega)
        simp only [substFuel, scanPartsFuel, hm]
        rcases hP : scanPartsFuel n0 cs with _ | ⟨seg | pr, parts⟩
        · rw [hP] at hcs
          simp only [mapE, Except.map] at hcs
          rw [hcs, ok_bind]
          simp [mapE, renderPart, Except.map, ok_bind]
        · rw [hP] at hcs
          rw [mapE_cons_of_ok
            (show renderPart vocab (Sum.inl seg) = .ok seg from rfl) parts] at hcs
          rw [mapE_cons_of_ok
            (show renderPart vocab (Sum.inl (c :: seg)) = .ok (c :: seg) from rfl)
            parts]
          rcases hq : mapE (renderPart vocab) parts with e | rs
          · rw [hq] at hcs
            simp only [Except.map] at hcs ⊢
            rw [hcs, error_bind]
          · rw [hq] at hcs
            simp only [Except.map] at hcs ⊢
            rw [hcs, ok_bind]
            simp [List.flatten_cons, List.cons_append]
        · rw [hP] at hcs
          rw [mapE_cons_of_ok
            (show renderPart vocab (Sum.inl [c]) = .ok [c] from rfl)
            (Sum.inr pr :: parts)]
          rcases hq : mapE (renderPart vocab) (Sum.inr pr :: parts) with e | rs
          · rw [hq] at hcs
            simp only [Except.map] at hcs ⊢
            rw [hcs, error_bind]
          · rw [hq] at hcs
            simp only [Except.map] at hcs ⊢
            rw [hcs, ok_bind]
            simp [List.flatten_cons, List.singleton_append]

/-- Raw reconstruction at exact fuel. -/
theorem lineParts_raw (l : List Char) :
    ((lineParts l).map partRaw).flatten = l :=
  scanPartsFuel_raw l.length l (Nat.le_refl _)

/-- The substitution renders the scan decomposition. -/
theorem subst_renders (vocab : List (String × Nat)) (l : List Char) :
    subst vocab l =
      (mapE (renderPart vocab) (lineParts l)).map List.flatten :=
  substFuel_renders vocab l.length l (Nat.le_refl _)

/-! ### Lemmas about the vocabulary -/

theorem dictGet_mkVocabAux_none {a : String} :
    ∀ (i : Nat) (ns : List String), a ∉ ns →
      dictGet (mkVocabAux i ns) a = none := by
  intro i ns
  induction ns generalizing i with
  | nil => intro _; rfl
  | cons n ns ih =>
    intro h
    simp only [List.mem_cons, not_or] at h
    simp only [mkVocabAux, dictGet]
    rw [ih (i + 1) h.2, if_neg (fun hc => h.1 hc.symm)]

/-- In `dict(enumerate([a, b] ++ rest))` with `a ≠ b` not recurring in
`rest`, the front names keep indices 0 and 1. -/
theorem dictGet_front (a b : String) (hab : a ≠ b) (rest : List String)
    (ha : a ∉ rest) (hb : b ∉ rest) :
    dictGet (mkVocab ([a, b] ++ rest)) a = some 0 ∧
    dictGet (mkVocab ([a, b] ++ rest)) b = some 1 := by
  have hVa : dictGet (mkVocabAux 2 rest) a = none := dictGet_mkVocabAux_none 2 rest ha
  have hVb : dictGet (mkVocabAux 2 rest) b = none := dictGet_mkVocabAux_none 2 rest hb
  constructor
  · show dictGet ((a, 0) :: (b, 1) :: mkVocabAux 2 rest) a = some 0
    simp only [dictGet, hVa]
    rw [if_neg (fun hc => hab hc.symm)]
    simp
  · show dictGet ((a, 0) :: (b, 1) :: mkVocabAux 2 rest) b = some 1
    simp only [dictGet, hVb]
    simp

theorem mem_listUnion {x : String} {a b : List String} :
    x ∈ listUnion a b ↔ x ∈ a ∨ x ∈ b := by
  unfold listUnion
  simp only [List.mem_append, List.mem_filter, decide_eq_true_eq]
  constructor
  · rintro (h | ⟨h, _⟩)
    · exact Or.inl h
    · exact Or.inr h
  · intro h
    by_cases hx : x ∈ a
    · exact Or.inl hx
    · rcases h with h | h
      · exact absurd h hx
      · exact Or.inr ⟨h, hx⟩

theorem nodup_listUnion {a b : List String} (ha : a.Nodup) (hb : b.Nodup) :
    (listUnion a b).Nodup := by
  unfold listUnion
  rw [List.nodup_append]
  refine ⟨ha, hb.filter _, ?_⟩
  intro x hxa hxb
  rw [List.mem_filter, decide_eq_true_eq] at hxb
  exact hxb.2 hxa

theorem mem_listDiff {x : String} {a b : List String} :
    x ∈ listDiff a b ↔ x ∈ a ∧ x ∉ b := by
  unfold listDiff
  simp [List.mem_filter]

theorem nodup_listDiff {a b : List String} (ha : a.Nodup) :
    (listDiff a b).Nodup :=
  ha.filter _

theorem nodup_get_combined_keys (ds : List FeatDict) :
    (get_combined_keys ds).Nodup :=
  List.nodup_dedup _

/-- Membership after the `partial_fit` loop body folded over the sequences,
provided the accumulator is already front-free. -/
theorem innerFold_mem (front : List String) :
    ∀ (X : List (List FeatDict)) (ks : List String),
      (∀ x ∈ ks, x ∉ front) → ∀ x : String,
      (x ∈ X.foldl
          (fun ks ds => listDiff (listUnion ks (get_combined_keys ds)) front)
          ks ↔
        x ∈ ks ∨ (x ∈ (X.map get_combined_keys).flatten ∧ x ∉ front)) := by
  intro X
  induction X with
  | nil =>
    intro ks _ x
    simp
  | cons ds X ih =>
    intro ks hks x
    simp only [List.foldl_cons]
    rw [ih (listDiff (listUnion ks (get_combined_keys ds)) front)
      (fun y hy => (mem_listDiff.mp hy).2) x]
    simp only [mem_listDiff, mem_listUnion, List.map_cons, List.flatten_cons,
      List.mem_append]
    constructor
    · rintro (⟨h | h, hnf⟩ | ⟨h, hnf⟩)
      · exact Or.inl h
      · exact Or.inr ⟨Or.inl h, hnf⟩
      · exact Or.inr ⟨Or.inr h, hnf⟩
    · rintro (h | ⟨h | h, hnf⟩)
      · exact Or.inl ⟨Or.inl h, hks x h⟩
      · exact Or.inl ⟨Or.inr h, hnf⟩
      · exact Or.inr ⟨h, hnf⟩

theorem innerFold_nodup (front : List String) :
    ∀ (X : List (List FeatDict)) (ks : List String), ks.Nodup →
      (X.foldl
        (fun ks ds => listDiff (listUnion ks (get_combined_keys ds)) front)
        ks).Nodup := by
  intro X
  induction X with
  | nil => intro ks h; exact h
  | cons ds X ih =>
    intro ks hks
    simp only [List.foldl_cons]
    exact ih _ (nodup_listDiff (nodup_listUnion hks (nodup_get_combined_keys ds)))

/-- What one `partial_fit` call with at least one sequence produces. -/
theorem partial_fit_keys (e : WapitiFeatureEncoder) (ds0 : List FeatDict)
    (X' : List (List FeatDict)) :
    ∃ keys,
      (e.partial_fit (ds0 :: X')).feature_names_ = some (e.move_to_front ++ keys) ∧
      (e.partial_fit (ds0 :: X')).vocabulary_ =
        some (mkVocab (e.move_to_front ++ keys)) ∧
      (e.partial_fit (ds0 :: X')).move_to_front = e.move_to_front ∧
      keys.Nodup ∧ (∀ x ∈ keys, x ∉ e.move_to_front) ∧
      (∀ x : String, x ∈ keys ↔
        (x ∈ e.storedKeys ∨ x ∈ ((ds0 :: X').map get_combined_keys).flatten) ∧
          x ∉ e.move_to_front) := by
  refine ⟨(ds0 :: X').foldl
      (fun ks ds => listDiff (listUnion ks (get_combined_keys ds)) e.move_to_front)
      e.storedKeys, rfl, rfl, rfl, ?_, ?_, ?_⟩
  · exact innerFold_nodup _ _ _ (List.nodup_dedup _)
  · intro x hx
    simp only [List.foldl_cons] at hx
    rcases (innerFold_mem e.move_to_front X' _
        (fun y hy => (mem_listDiff.mp hy).2) x).mp hx with h | h
    · exact (mem_listDiff.mp h).2
    · exact h.2
  · intro x
    simp only [List.foldl_cons]
    rw [innerFold_mem e.move_to_front X' _
      (fun y hy => (mem_listDiff.mp hy).2) x]
    simp only [mem_listDiff, mem_listUnion, List.map_cons, List.flatten_cons,
      List.mem_append]
    constructor
    · rintro (⟨h | h, hnf⟩ | ⟨h, hnf⟩)
      · exact ⟨Or.inl h, hnf⟩
      · exact ⟨Or.inr (Or.inl h), hnf⟩
      · exact ⟨Or.inr (Or.inr h), hnf⟩
    · rintro ⟨h | h | h, hnf⟩
      · exact Or.inl ⟨Or.inl h, hnf⟩
      · exact Or.inl ⟨Or.inr h, hnf⟩
      · exact Or.inr ⟨h, hnf⟩

/-- The names observed across a sequence of `partial_fit` batches. -/
def keysOfBatches : List (List (List FeatDict)) → List String
  | [] => []
  | X :: bs => (X.map get_combined_keys).flatten ++ keysOfBatches bs

/-- Folding further `partial_fit` calls (each with at least one sequence)
over an already-fitted encoder preserves the invariant and accumulates the
observed names. -/
theorem fitSeq_keys (front : List String) :
    ∀ (bs : List (List (List FeatDict))) (e : WapitiFeatureEncoder)
      (rest0 : List String),
      (∀ X ∈ bs, X ≠ []) →
      e.move_to_front = front →
      e.feature_names_ = some (front ++ rest0) →
      e.vocabulary_ = some (mkVocab (front ++ rest0)) →
      rest0.Nodup → (∀ x ∈ rest0, x ∉ front) →
      ∃ rest,
        (bs.foldl WapitiFeatureEncoder.partial_fit e).feature_names_ =
          some (front ++ rest) ∧
        (bs.foldl WapitiFeatureEncoder.partial_fit e).vocabulary_ =
          some (mkVocab (front ++ rest)) ∧
        rest.Nodup ∧ (∀ x ∈ rest, x ∉ front) ∧
        (∀ x : String, x ∈ rest ↔
          (x ∈ rest0 ∨ x ∈ keysOfBatches bs) ∧ x ∉ front) := by
  intro bs
  induction bs with
  | nil =>
    intro e rest0 _ _ hn hv hnd hff
    refine ⟨rest0, hn, hv, hnd, hff, ?_⟩
    intro x
    simp only [keysOfBatches, List.not_mem_nil, or_false]
    exact ⟨fun h => ⟨h, hff x h⟩, fun h => h.1⟩
  | cons X bs ih =>
    intro e rest0 hne hmtf hn hv hnd hff
    rcases List.exists_cons_of_ne_nil (hne X (by simp)) with ⟨ds0, X', rfl⟩
    rcases partial_fit_keys e ds0 X' with
      ⟨keys, hn1, hv1, hm1, hnd1, hff1, hmem1⟩
    rw [hmtf] at hn1 hv1 hm1 hff1 hmem1
    have hstored : ∀ x : String, x ∈ e.storedKeys ↔ x ∈ front ∨ x ∈ rest0 := by
      intro x
      unfold WapitiFeatureEncoder.storedKeys
      rw [hn]
      simp [List.mem_dedup]
    rcases ih (e.partial_fit (ds0 :: X')) keys
        (fun Y hY => hne Y (List.mem_cons_of_mem _ hY)) hm1 hn1 hv1 hnd1 hff1 with
      ⟨rest, hn2, hv2, hnd2, hff2, hmem2⟩
    simp only [List.foldl_cons]
    refine ⟨rest, hn2, hv2, hnd2, hff2, ?_⟩
    intro x
    rw [hmem2 x]
    simp only [keysOfBatches, List.mem_append]
    constructor
    · rintro ⟨h | h, hnf⟩
      · rcases ((hmem1 x).mp h).1 with hs | hflat
        · rcases (hstored x).mp hs with hfr | hr0
          · exact absurd hfr hnf
          · exact ⟨Or.inl hr0, hnf⟩
        · exact ⟨Or.inr (Or.inl hflat), hnf⟩
      · exact ⟨Or.inr (Or.inr h), hnf⟩
    · rintro ⟨h | h | h, hnf⟩
      · exact ⟨Or.inl ((hmem1 x).mpr ⟨Or.inl ((hstored x).mpr (Or.inr h)), hnf⟩),
          hnf⟩
      · exact ⟨Or.inl ((hmem1 x).mpr ⟨Or.inr h, hnf⟩), hnf⟩
      · exact ⟨Or.inr h, hnf⟩

/-! ### The claims -/

/-- C1: template compilation rewrites macros as the spec's examples state:
with a vocabulary fitted on `{token, tag}` (token at column 0, tag at
column 1), `prepare_template("*:Pos-1 L=%x[-1, tag]")` gives
`"*:Pos-1 L=%x[-1,1]"` (whitespace around offset and column removed, the
named column resolved to its index), and a macro whose column is already a
bare non-negative integer, such as `%m[0,0,".?.?$"]`, is emitted verbatim
with its trailing pattern argument unchanged and with no vocabulary lookup
(it compiles identically under the empty vocabulary). -/
theorem prepare_template_rewrites_examples :
    ((WapitiFeatureEncoder.init ["token", "tag"]).fit
        [[[("token", "the"), ("tag", "DT")], [("token", "dog"), ("tag", "NN")]]]).prepare_template
      "*:Pos-1 L=%x[-1, tag]" = .ok "*:Pos-1 L=%x[-1,1]" ∧
    prepare_wapiti_template "*:Pos-1 L=%x[-1, tag]" [("token", 0), ("tag", 1)] =
      .ok "*:Pos-1 L=%x[-1,1]" ∧
    prepare_wapiti_template "%m[0,0,\".?.?$\"]" [("token", 0), ("tag", 1)] =
      .ok "%m[0,0,\".?.?$\"]" ∧
    prepare_wapiti_template "%m[0,0,\".?.?$\"]" [] = .ok "%m[0,0,\".?.?$\"]" :=
  ⟨by decide, by decide, by decide, by decide⟩

/-- C3: a template line that begins (after stripping leading whitespace)
with `#` is copied through compilation unchanged, with no macro rewriting
and no unknown-feature error, for every vocabulary. -/
theorem comment_line_immune (vocab : List (String × Nat)) (line : String)
    (hc : _wapiti_line_is_comment line = true) (hnl : '\n' ∉ line.toList) :
    prepare_wapiti_template line vocab = .ok line := by
  have hsplit : pySplitlines line = [line] := by
    unfold pySplitlines
    rw [pySplitlinesL_single (comment_toList_ne_nil hc) hnl]
    simp [mk_toList]
  unfold prepare_wapiti_template
  rw [hsplit,
    show mapE (processLine vocab) [line] = .ok [line] from by
      simp only [mapE]
      rw [processLine_comment vocab line hc, ok_bind]
      rfl]
  rfl

/-- Witness for C3 at a concrete comment line whose macro references a
feature name absent from the (empty) vocabulary. -/
theorem comment_line_immune_witness :
    prepare_wapiti_template "# L=%x[0,unknown_feature]" [] =
      .ok "# L=%x[0,unknown_feature]" :=
  comment_line_immune [] "# L=%x[0,unknown_feature]" (by decide) (by decide)

/-- C4: a non-comment template line containing a recognized macro whose
column token is non-numeric and absent from the vocabulary makes the whole
compilation fail with an error (nothing is substituted or silently
dropped). -/
theorem unknown_feature_aborts (tpl : String) (vocab : List (String × Nat))
    (line : String) (hline : line ∈ pySplitlines tpl)
    (hnc : _wapiti_line_is_comment line = false)
    (m : MacroMatch) (hm : m ∈ findMacros line.toList)
    (hnd : pyIsDigit m.column = false)
    (hnv : dictGet vocab (String.mk m.column) = none) :
    ∃ e, prepare_wapiti_template tpl vocab = .error e := by
  rcases subst_error_of_bad hm hnd hnv with ⟨e0, hsub⟩
  have hpl : processLine vocab line = .error e0 := by
    unfold processLine
    rw [if_neg (by simp [hnc]), hsub]
    rfl
  rcases mapE_error_of_mem hline hpl with ⟨e2, hmap⟩
  exact ⟨e2, by unfold prepare_wapiti_template; rw [hmap]; rfl⟩

/-- Witness for C4: `%x[0,foo]` with an empty vocabulary aborts the whole
compilation. -/
theorem unknown_feature_aborts_witness :
    ∃ e, prepare_wapiti_template "u:%x[0,foo]" [] = .error e :=
  unknown_feature_aborts "u:%x[0,foo]" [] "u:%x[0,foo]" (by decide) (by decide)
    ⟨'x', ['0'], ['f', 'o', 'o'], ']', []⟩ (by decide) (by decide) (by decide)

/-- C6 (amended): compilation splits the template into physical lines,
compiles each line independently, and joins the results with a single
`'\n'`: one output line per input line.  Within each line all non-macro
text is unchanged byte-for-byte apart from the macro rewrites themselves:
a comment line (and any line without `%`) is copied whole, and every
other line is exactly the concatenation of the scan's non-macro gaps and
matched macro spans, the output being the same concatenation with each
gap copied through verbatim and only the matched spans replaced by their
rewrites.  Line *terminators*, however, are not preserved byte-for-byte:
the join normalizes them and drops a trailing newline (see the
counterexample). -/
theorem prepare_lines_amended (tpl : String) (vocab : List (String × Nat))
    (out : String) (h : prepare_wapiti_template tpl vocab = .ok out) :
    ∃ ls, mapE (processLine vocab) (pySplitlines tpl) = .ok ls ∧
      out = joinNl ls ∧ ls.length = (pySplitlines tpl).length ∧
      List.Forall₂ (fun lin lout => processLine vocab lin = .ok lout ∧
          (_wapiti_line_is_comment lin = true → lout = lin) ∧
          ((∀ c ∈ lin.toList, c ≠ '%') → lout = lin) ∧
          (_wapiti_line_is_comment lin = false →
            ((lineParts lin.toList).map partRaw).flatten = lin.toList ∧
            ∃ rendered,
              mapE (renderPart vocab) (lineParts lin.toList) = .ok rendered ∧
              lout.toList = rendered.flatten ∧
              List.Forall₂ (fun part seg => ∀ s, part = Sum.inl s → seg = s)
                (lineParts lin.toList) rendered))
        (pySplitlines tpl) ls := by
  unfold prepare_wapiti_template at h
  rcases hm : mapE (processLine vocab) (pySplitlines tpl) with e | ls
  · rw [hm] at h
    exact absurd h (by simp [Except.map])
  rw [hm] at h
  have hout : out = joinNl ls := (Except.ok.inj h).symm
  have hf2 := mapE_forall2 hm
  refine ⟨ls, rfl, hout, (List.Forall₂.length_eq hf2).symm, ?_⟩
  refine List.Forall₂.imp ?_ hf2
  intro a b hab
  refine ⟨hab, ?_, ?_, ?_⟩
  · intro hcom
    exact Except.ok.inj (hab.symm.trans (processLine_comment vocab a hcom))
  · intro hnp
    exact Except.ok.inj (hab.symm.trans (processLine_no_percent vocab a hnp))
  · intro hnc
    refine ⟨lineParts_raw a.toList, ?_⟩
    have hsub : subst vocab a.toList = .ok b.toList := by
      unfold processLine at hab
      rw [if_neg (by simp [hnc])] at hab
      rcases hs : subst vocab a.toList with e | outl
      · rw [hs] at hab
        exact absurd hab (by simp [Except.map])
      · rw [hs] at hab
        simp only [Except.map, Except.ok.injEq] at hab
        rw [← hab]
        rfl
    rw [subst_renders] at hsub
    rcases hr : mapE (renderPart vocab) (lineParts a.toList) with e | rendered
    · rw [hr] at hsub
      exact absurd hsub (by simp [Except.map])
    · rw [hr] at hsub
      simp only [Except.map, Except.ok.injEq] at hsub
      refine ⟨rendered, rfl, hsub.symm, ?_⟩
      refine List.Forall₂.imp ?_ (mapE_forall2 hr)
      intro p r hpr s hps
      subst hps
      exact (Except.ok.inj hpr).symm

/-- Witness for the amended C6 at a concrete three-line template whose
macro line carries non-macro text on both sides of the macro. -/
theorem prepare_lines_amended_witness :
    ∃ ls, mapE (processLine [("tag", 1)])
        (pySplitlines "a b\n# c\nL=%x[0, tag] R") = .ok ls ∧
      "a b\n# c\nL=%x[0,1] R" = joinNl ls ∧
      ls.length = (pySplitlines "a b\n# c\nL=%x[0, tag] R").length ∧
      List.Forall₂ (fun lin lout => processLine [("tag", 1)] lin = .ok lout ∧
          (_wapiti_line_is_comment lin = true → lout = lin) ∧
          ((∀ c ∈ lin.toList, c ≠ '%') → lout = lin) ∧
          (_wapiti_line_is_comment lin = false →
            ((lineParts lin.toList).map partRaw).flatten = lin.toList ∧
            ∃ rendered,
              mapE (renderPart [("tag", 1)]) (lineParts lin.toList) =
                .ok rendered ∧
              lout.toList = rendered.flatten ∧
              List.Forall₂ (fun part seg => ∀ s, part = Sum.inl s → seg = s)
                (lineParts lin.toList) rendered))
        (pySplitlines "a b\n# c\nL=%x[0, tag] R") ls :=
  prepare_lines_amended "a b\n# c\nL=%x[0, tag] R" [("tag", 1)]
    "a b\n# c\nL=%x[0,1] R" (by decide)

/-- Counterexample to C6 as stated: a template consisting of one line and a
trailing newline, containing no macros at all, does not come back
byte-for-byte — the trailing line terminator is dropped by
`splitlines()` + `'\n'.join(...)`. -/
theorem prepare_trailing_newline_cex :
    prepare_wapiti_template "*:u\n" [] = .ok "*:u" ∧
      ("*:u" : String) ≠ "*:u\n" :=
  ⟨by decide, by decide⟩

/-- C2 (amended): for a vocabulary fitted with front names `(a, b)`,
`a ≠ b`, by any non-empty sequence of `partial_fit` calls *each given at
least one sequence of observations*, the final name list is exactly
`[a, b]` followed by the remaining observed names with the front names
removed, each name appearing exactly once, and `index_of a = 0`,
`index_of b = 1`.  (A `partial_fit` call with an empty batch list breaks
the invariant — see the counterexample.) -/
theorem partial_fit_front_pinning (a b : String) (hab : a ≠ b)
    (bs : List (List (List FeatDict))) (hbs : bs ≠ [])
    (hne : ∀ X ∈ bs, X ≠ []) :
    ∃ rest,
      (bs.foldl WapitiFeatureEncoder.partial_fit
          (WapitiFeatureEncoder.init [a, b])).feature_names_ =
        some ([a, b] ++ rest) ∧
      ([a, b] ++ rest).Nodup ∧
      (∀ x : String, x ∈ rest ↔
        x ∈ keysOfBatches bs ∧ x ∉ ([a, b] : List String)) ∧
      (bs.foldl WapitiFeatureEncoder.partial_fit
          (WapitiFeatureEncoder.init [a, b])).index_of a = some 0 ∧
      (bs.foldl WapitiFeatureEncoder.partial_fit
          (WapitiFeatureEncoder.init [a, b])).index_of b = some 1 := by
  rcases List.exists_cons_of_ne_nil hbs with ⟨X, bs', rfl⟩
  rcases List.exists_cons_of_ne_nil (hne X (by simp)) with ⟨ds0, X', rfl⟩
  rcases partial_fit_keys (WapitiFeatureEncoder.init [a, b]) ds0 X' with
    ⟨keys, hn1, hv1, hm1, hnd1, hff1, hmem1⟩
  have hstored0 : (WapitiFeatureEncoder.init [a, b]).storedKeys = [] := rfl
  rcases fitSeq_keys [a, b] bs'
      ((WapitiFeatureEncoder.init [a, b]).partial_fit (ds0 :: X')) keys
      (fun Y hY => hne Y (List.mem_cons_of_mem _ hY)) hm1 hn1 hv1 hnd1 hff1 with
    ⟨rest, hn2, hv2, hnd2, hff2, hmem2⟩
  have hmem : ∀ x : String, x ∈ rest ↔
      x ∈ keysOfBatches ((ds0 :: X') :: bs') ∧ x ∉ ([a, b] : List String) := by
    intro x
    rw [hmem2 x]
    simp only [keysOfBatches, List.mem_append]
    constructor
    · rintro ⟨h | h, hnf⟩
      · rcases (hmem1 x).mp h with ⟨hs | hs, _⟩
        · rw [hstored0] at hs
          exact absurd hs (by simp)
        · exact ⟨Or.inl hs, hnf⟩
      · exact ⟨Or.inr h, hnf⟩
    · rintro ⟨h | h, hnf⟩
      · exact ⟨Or.inl ((hmem1 x).mpr ⟨Or.inr h, hnf⟩), hnf⟩
      · exact ⟨Or.inr h, hnf⟩
  have ha : a ∉ rest := fun h => ((hmem a).mp h).2 (by simp)
  have hb : b ∉ rest := fun h => ((hmem b).mp h).2 (by simp)
  rcases dictGet_front a b hab rest ha hb with ⟨hga, hgb⟩
  simp only [List.foldl_cons] at hn2 hv2 ⊢
  refine ⟨rest, hn2, ?_, hmem, ?_, ?_⟩
  · rw [List.nodup_append]
    refine ⟨by simp [hab], hnd2, ?_⟩
    intro x hx hxr
    exact ((hmem x).mp hxr).2 hx
  · unfold WapitiFeatureEncoder.index_of
    rw [hv2]
    exact hga
  · unfold WapitiFeatureEncoder.index_of
    rw [hv2]
    exact hgb

/-- Witness for the amended C2 at one concrete fit. -/
theorem partial_fit_front_pinning_witness :
    ∃ rest,
      (([[[[("a", "v"), ("c", "v")]]]] : List (List (List FeatDict))).foldl
          WapitiFeatureEncoder.partial_fit
          (WapitiFeatureEncoder.init ["a", "b"])).feature_names_ =
        some (["a", "b"] ++ rest) ∧
      (["a", "b"] ++ rest).Nodup ∧
      (∀ x : String, x ∈ rest ↔
        x ∈ keysOfBatches
            ([[[[("a", "v"), ("c", "v")]]]] : List (List (List FeatDict))) ∧
          x ∉ (["a", "b"] : List String)) ∧
      (([[[[("a", "v"), ("c", "v")]]]] : List (List (List FeatDict))).foldl
          WapitiFeatureEncoder.partial_fit
          (WapitiFeatureEncoder.init ["a", "b"])).index_of "a" = some 0 ∧
      (([[[[("a", "v"), ("c", "v")]]]] : List (List (List FeatDict))).foldl
          WapitiFeatureEncoder.partial_fit
          (WapitiFeatureEncoder.init ["a", "b"])).index_of "b" = some 1 :=
  partial_fit_front_pinning "a" "b" (by decide)
    ([[[[("a", "v"), ("c", "v")]]]] : List (List (List FeatDict)))
    (by decide) (by decide)

/-- Counterexample to C2 as stated: a second `partial_fit` call with an
empty batch list re-unions the stored names (front included) without the
`- move_to_front` subtraction, duplicating the front names; the front name
`a` no longer has index 0 and the name list holds it twice. -/
theorem partial_fit_front_pinning_cex :
    (((WapitiFeatureEncoder.init ["a", "b"]).partial_fit
        [[[("a", "1"), ("b", "1"), ("c", "1")]]]).partial_fit
      []).feature_names_ = some ["a", "b", "a", "b", "c"] ∧
    (((WapitiFeatureEncoder.init ["a", "b"]).partial_fit
        [[[("a", "1"), ("b", "1"), ("c", "1")]]]).partial_fit
      []).index_of "a" = some 2 ∧
    some 2 ≠ some 0 :=
  ⟨by decide, by decide, by decide⟩

/-- Python dict lookup is invariant under reordering of the pair list when
no key repeats. -/
theorem dictGet_perm {α : Type} {d1 d2 : List (String × α)}
    (h : List.Perm d1 d2) (hnd : (d1.map Prod.fst).Nodup) (k : String) :
    dictGet d1 k = dictGet d2 k := by
  induction h with
  | nil => rfl
  | cons p hperm ih =>
    rename_i l1 l2
    have h2 : (l1.map Prod.fst).Nodup := by
      simp only [List.map_cons, List.nodup_cons] at hnd
      exact hnd.2
    simp only [dictGet]
    rw [ih h2]
  | swap x y l =>
    simp only [List.map_cons, List.nodup_cons, List.mem_cons] at hnd
    have hxy : y.1 ≠ x.1 := fun he => hnd.1 (Or.inl he)
    simp only [dictGet]
    cases hl : dictGet l k
    · by_cases hx : x.1 = k
      · by_cases hy : y.1 = k
        · exact absurd (hy.trans hx.symm) hxy
        · simp [hx, hy]
      · by_cases hy : y.1 = k
        · simp [hx, hy]
        · simp [hx, hy]
    · simp
  | trans h1 h2 ih1 ih2 =>
    rw [ih1 hnd, ih2 ((h1.map Prod.fst).nodup hnd)]

/-- C5: for a fitted vocabulary, `transform_single` emits exactly one row
per observation; each row has one column per vocabulary name, in vocabulary
order, joined by single spaces with no trailing separator, a missing key
rendered by the fixed `tostr` placeholder; and a row depends only on the
key-value contents of the dict, not on its internal key order. -/
theorem transform_single_rows (e : WapitiFeatureEncoder) (names : List String)
    (h : e.feature_names_ = some names) (ds : List FeatDict)
    (d1 d2 : FeatDict) (hperm : List.Perm d1 d2)
    (hnd : (d1.map Prod.fst).Nodup) :
    e.transform_single ds = some (ds.map (encodeRow names)) ∧
    (ds.map (encodeRow names)).length = ds.length ∧
    (∀ d : FeatDict,
      encodeRow names d = joinSp (names.map fun k => tostr (dictGet d k))) ∧
    encodeRow names d1 = encodeRow names d2 := by
  refine ⟨?_, by simp, fun d => rfl, ?_⟩
  · unfold WapitiFeatureEncoder.transform_single
    split
    · rename_i hds
      rw [List.isEmpty_iff.mp hds]
      rfl
    · rw [h]
      rfl
  · unfold encodeRow
    have hf : ∀ k, dictGet d1 k = dictGet d2 k := dictGet_perm hperm hnd
    simp only [hf]

/-- Witness for C5 at a concrete fitted encoder and observations. -/
theorem transform_single_rows_witness :
    ((WapitiFeatureEncoder.init ["token"]).fit
          [[[("token", "dog"), ("tag", "NN")]]]).transform_single
        [[("tag", "NN"), ("token", "dog")], [("token", "the")]] =
      some ([[("tag", "NN"), ("token", "dog")],
        [("token", "the")]].map (encodeRow ["token", "tag"])) ∧
    ([[("tag", "NN"), ("token", "dog")],
        [("token", "the")]].map (encodeRow ["token", "tag"])).length = 2 ∧
    (∀ d : FeatDict, encodeRow ["token", "tag"] d =
      joinSp (["token", "tag"].map fun k => tostr (dictGet d k))) ∧
    encodeRow ["token", "tag"] [("token", "dog"), ("tag", "NN")] =
      encodeRow ["token", "tag"] [("tag", "NN"), ("token", "dog")] :=
  transform_single_rows
    ((WapitiFeatureEncoder.init ["token"]).fit
      [[[("token", "dog"), ("tag", "NN")]]])
    ["token", "tag"] (by decide)
    [[("tag", "NN"), ("token", "dog")], [("token", "the")]]
    [("token", "dog"), ("tag", "NN")] [("tag", "NN"), ("token", "dog")]
    (by decide) (by decide)

/-- C7 (amended): `reset()` clears the learned ordered feature-name list
back to the never-fitted `None`, and touches nothing else — in particular
the source leaves `vocabulary_` in place, so the derived name-to-index
mapping of the previous fit remains observable until the next fit. -/
theorem reset_clears_names_only (e : WapitiFeatureEncoder) :
    (e.reset).feature_names_ = none ∧
    (e.reset).vocabulary_ = e.vocabulary_ ∧
    (e.reset).move_to_front = e.move_to_front :=
  ⟨rfl, rfl, rfl⟩

/-- Counterexample to C7 as stated: after fitting and then `reset()`, the
name-to-index mapping is *not* cleared — `vocabulary_` still holds the old
indices and `index_of` still answers. -/
theorem reset_keeps_vocabulary_cex :
    (((WapitiFeatureEncoder.init ["token"]).partial_fit
        [[[("token", "dog"), ("tag", "NN")]]]).reset).vocabulary_ =
      some [("token", 0), ("tag", 1)] ∧
    (((WapitiFeatureEncoder.init ["token"]).partial_fit
        [[[("token", "dog"), ("tag", "NN")]]]).reset).index_of "tag" =
      some 1 ∧
    some [("token", 0), ("tag", 1)] ≠ (none : Option (List (String × Nat))) :=
  ⟨by decide, by decide, by decide⟩

/-- C8: on the prediction path the labels are the last whitespace-delimited
field of each non-blank tagger output line, in order; a count mismatch with
the input tokens is a fatal error, and a success is exactly the full
token-label pairing (never truncated or padded). -/
theorem chunker_alignment (tokens : List String) (out : String) :
    (tokens.length ≠ (_get_labels out).length →
      WapitiChunker.transform tokens out =
        .error "AssertionError: len(tokens) == len(labels)") ∧
    (∀ ps, WapitiChunker.transform tokens out = .ok ps →
      ps.map Prod.fst = tokens ∧ ps.map Prod.snd = _get_labels out ∧
      ps.length = tokens.length ∧ ps.length = (_get_labels out).length) := by
  constructor
  · intro hne
    unfold WapitiChunker.transform
    rw [if_neg hne]
  · intro ps hps
    unfold WapitiChunker.transform at hps
    split at hps
    · rename_i heq
      obtain rfl : tokens.zip (_get_labels out) = ps := Except.ok.inj hps
      refine ⟨List.map_fst_zip _ _ (Nat.le_of_eq heq),
        List.map_snd_zip _ _ (Nat.le_of_eq heq.symm), ?_, ?_⟩
      · rw [List.length_zip, heq]
        exact Nat.min_self _
      · rw [List.length_zip, heq]
        exact Nat.min_self _
    · exact absurd hps (by simp)

/-- Witness for C8: a dropped row aborts; a matching run returns the exact
pairing. -/
theorem chunker_alignment_witness :
    WapitiChunker.transform ["w1"] "x f O\ny g B\n" =
      .error "AssertionError: len(tokens) == len(labels)" ∧
    ([("w1", "O"), ("w2", "B")] : List (String × String)).map Prod.fst =
      ["w1", "w2"] :=
  ⟨(chunker_alignment ["w1"] "x f O\ny g B\n").1 (by decide),
    ((chunker_alignment ["w1", "w2"] "x f O\ny g B\n\n").2
      [("w1", "O"), ("w2", "B")] (by decide)).1⟩

/-- C9: calling the orchestrator's `fit` with (non-empty) development
observations but no development labels, or development labels but no
development observations, raises the usage `ValueError` before any file is
created and before the trainer is invoked (the action trace is empty). -/
theorem fit_dev_validation (e : WapitiFeatureEncoder)
    (X : List (List FeatDict)) (X_dev : Option (List (List FeatDict)))
    (y_dev : Option (List (List String))) (out_dev : Option String)
    (h : (optTruthyL X_dev = true ∧ y_dev = none) ∨
      (optTruthyL y_dev = true ∧ X_dev = none)) :
    WapitiCRF.fit e X X_dev y_dev out_dev =
      { actions := [],
        error := some "ValueError: Pass both X_dev and y_dev to use the development data" } := by
  unfold WapitiCRF.fit
  rcases h with ⟨ht, rfl⟩ | ⟨ht, rfl⟩
  · rw [if_pos (by simp [ht])]
  · rw [if_pos (by simp [ht])]

/-- Witness for C9: development observations supplied, labels missing. -/
theorem fit_dev_validation_witness :
    WapitiCRF.fit (WapitiFeatureEncoder.init ["token"]) []
        (some [[[("token", "x")]]]) none none =
      { actions := [],
        error := some "ValueError: Pass both X_dev and y_dev to use the development data" } :=
  fit_dev_validation (WapitiFeatureEncoder.init ["token"]) []
    (some [[[("token", "x")]]]) none none (Or.inl ⟨by decide, rfl⟩)

/-- Zipping truncates both lists to the shorter length. -/
theorem zip_take_min {α β : Type} :
    ∀ (l1 : List α) (l2 : List β),
      l1.zip l2 = (l1.take (min l1.length l2.length)).zip
        (l2.take (min l1.length l2.length)) := by
  intro l1
  induction l1 with
  | nil => intro l2; simp
  | cons a l1 ih =>
    intro l2
    cases l2 with
    | nil => simp
    | cons b l2 =>
      simp only [List.zip_cons_cons, List.length_cons]
      have hm : min (l1.length + 1) (l2.length + 1) = min l1.length l2.length + 1 := by
        omega
      rw [hm]
      simp only [List.take_succ_cons, List.zip_cons_cons]
      rw [← ih l2]

/-- C10: `_to_train_sequence` pairs encoded rows with gold labels by
`zip`: when one list is shorter, the surplus rows or labels are silently
dropped from the written training sequence — the output is identical to
the output on the truncated inputs, exactly `min` many rows are written,
and no error is raised (the function is total). -/
theorem train_sequence_zip_truncates (wapiti_lines tags : List String) :
    _to_train_sequence wapiti_lines tags =
      _to_train_sequence
        (wapiti_lines.take (min wapiti_lines.length tags.length))
        (tags.take (min wapiti_lines.length tags.length)) ∧
    ((wapiti_lines.zip tags).map fun p => p.1 ++ " " ++ p.2).length =
      min wapiti_lines.length tags.length := by
  constructor
  · unfold _to_train_sequence
    rw [← zip_take_min]
  · rw [List.length_map, List.length_zip]

end Webstruct
